import Mathlib

/-!
Shallow embedding of the gofuzz core (grammar model, derivation trees,
grammar-coverage tracking, the coverage-weighted and systematic generators,
and the mutation-coverage scheduler), together with theorems settling the
frozen claims about it.

Sources embedded (Go):
  * grammar helpers: `isNonterminal`, `expansionKey`, `parseExpansionKey`
  * derivation trees: `DerivationTree`, `ToString`, `GetAllExpansions`,
    `GetLeafValues`, `treeToString`
  * coverage tracker: `GrammarCoverage` with `TrackExpansion`,
    `TrackDerivationTree`, `GetCoveragePriority`, `updatePriorities`,
    `HasExpansion`, `Reset`
  * generators: `chooseExpansion` (weighted), `generateDerivationTree`,
    and the systematic variant with `computeExpansionCoverage`,
    `getMaxExpansionCoverage`, `chooseExpansion` (systematic)
  * mutation-coverage scheduler: `addToPopulation`, `selectInput`,
    `assignEnergy`, `prunePopulation`, `isNewCoverage` and the `Run` loop.

Modelling conventions: Go `float64` is modelled as `ℚ` (all priority
arithmetic in the source is exact at the small values the claims touch);
Go maps from string keys are modelled as association lists with the same
lookup-default behaviour; the multiset of tracked coverage keys is a
`List String` read through `List.count`; the process-global `math/rand`
source is modelled as an explicit stream of draws (`Rng`), with
`rand.Float64` a rational draw and `rand.Intn n` a natural draw reduced
mod `n`, so that universally quantified theorems range over every possible
draw sequence.
-/

namespace Gofuzz

/-! ## Grammar model (src/unnamed/part_003) -/

/-- Go `isNonterminal`: a token enclosed in angle brackets
(`strings.HasPrefix(s, "<") && strings.HasSuffix(s, ">")`, read off the
character list). -/
def isNonterminal (s : String) : Bool :=
  s.toList.head? == some '<' && s.toList.getLast? == some '>'

/-- Go `Grammar`: map from symbol to its ordered expansions, as an
association list (Go map iteration order is irrelevant to the claims;
rule lookup is). -/
abbrev Grammar := List (String × List String)

/-- Go map indexing `grammar[symbol]`: the zero value `nil` when absent. -/
def lookupRule (g : Grammar) (symbol : String) : List String :=
  (List.lookup symbol g).getD []

/-- Go `expansionKey`: `symbol + " -> " + expansion`. -/
def expansionKey (symbol expansion : String) : String :=
  symbol ++ " -> " ++ expansion

/-- Character-level scan behind `parseExpansionKey`: split a character list
at the first occurrence of the separator `" -> "`, as
`strings.SplitN(key, " -> ", 2)` does. `none` when the separator is absent. -/
def splitAtSep : List Char → Option (List Char × List Char)
  | [] => none
  | c :: cs =>
    if c = ' ' then
      match cs with
      | '-' :: '>' :: ' ' :: rest => some ([], rest)
      | _ => (splitAtSep cs).map (fun p => (c :: p.1, p.2))
    else
      (splitAtSep cs).map (fun p => (c :: p.1, p.2))

/-- Go `parseExpansionKey`: `strings.SplitN(key, " -> ", 2)`; `("", "")`
when the separator does not occur. -/
def parseExpansionKey (key : String) : String × String :=
  match splitAtSep key.toList with
  | none => ("", "")
  | some (a, b) => (String.mk a, String.mk b)

/-- Word gathering behind `fields`: split a character list on runs of
blanks, keeping only the non-empty words, as `strings.Fields` does (the
source's expansions only ever contain the blank character as whitespace). -/
def fieldsAux (acc : List Char) : List Char → List (List Char)
  | [] => if acc.isEmpty then [] else [acc.reverse]
  | c :: cs =>
    if c = ' ' then
      if acc.isEmpty then fieldsAux [] cs else acc.reverse :: fieldsAux [] cs
    else
      fieldsAux (c :: acc) cs

/-- Go `strings.Fields` applied to an expansion. -/
def fields (s : String) : List String :=
  (fieldsAux [] s.toList).map String.mk

/-! ## Derivation trees (src/unnamed/part_005) -/

/-- Go `DerivationTree`: a node records its symbol, ordered children, the
terminal value (for leaves) and the expansion chosen (for internal nodes). -/
inductive DerivationTree where
  | mk (symbol : String) (children : List DerivationTree)
       (value : String) (expansion : String)

def DerivationTree.symbol : DerivationTree → String
  | .mk s _ _ _ => s

def DerivationTree.children : DerivationTree → List DerivationTree
  | .mk _ cs _ _ => cs

def DerivationTree.value : DerivationTree → String
  | .mk _ _ v _ => v

def DerivationTree.expansion : DerivationTree → String
  | .mk _ _ _ e => e

/-- Go `strings.Join(parts, " ")`. -/
def joinSpace : List String → String
  | [] => ""
  | [s] => s
  | s :: rest => s ++ " " ++ joinSpace rest

mutual

/-- Go `DerivationTree.ToString`: a leaf prints its value (or symbol when
the value is empty); an internal node prints `"(symbol child child ...)"`. -/
def DerivationTree.ToString : DerivationTree → String
  | .mk s [] v _ => if v != "" then v else s
  | .mk s (c :: cs) _ _ =>
      "(" ++ s ++ " " ++ joinSpace (DerivationTree.toStringList (c :: cs)) ++ ")"

def DerivationTree.toStringList : List DerivationTree → List String
  | [] => []
  | t :: ts => DerivationTree.ToString t :: DerivationTree.toStringList ts

end

mutual

/-- Go `DerivationTree.GetAllExpansions`: the coverage key of every node
whose expansion is non-empty, in pre-order. -/
def DerivationTree.GetAllExpansions : DerivationTree → List String
  | .mk s cs _ e =>
      (if e != "" then [expansionKey s e] else []) ++
        DerivationTree.getAllExpansionsList cs

def DerivationTree.getAllExpansionsList : List DerivationTree → List String
  | [] => []
  | t :: ts =>
      DerivationTree.GetAllExpansions t ++ DerivationTree.getAllExpansionsList ts

end

mutual

/-- Go `DerivationTree.GetLeafValues`: values of the leaves in order (a
leaf with an empty value contributes its symbol). -/
def DerivationTree.GetLeafValues : DerivationTree → List String
  | .mk s [] v _ => if v != "" then [v] else [s]
  | .mk _ (c :: cs) _ _ => DerivationTree.getLeafValuesList (c :: cs)

def DerivationTree.getLeafValuesList : List DerivationTree → List String
  | [] => []
  | t :: ts =>
      DerivationTree.GetLeafValues t ++ DerivationTree.getLeafValuesList ts

end

mutual

/-- Go `treeToString` (the fuzzer's flattening, src/unnamed/part_000): a
childless node yields its value, an internal node the concatenation of its
children's strings. -/
def treeToString : DerivationTree → String
  | .mk _ [] v _ => v
  | .mk _ (c :: cs) _ _ => treeToStringList (c :: cs)

def treeToStringList : List DerivationTree → String
  | [] => ""
  | t :: ts => treeToString t ++ treeToStringList ts

end

/-! ## Grammar coverage tracker (src/unnamed/part_002) -/

/-- Go `GrammarCoverage`. `covered` is the multiset of tracked coverage
keys (`covered.count k` is the Go map's count for `k`); `expansions` the
grammar snapshot; `trees` the serialised trees seen; `priorities` the
stored priority map recomputed by `updatePriorities`. -/
structure GrammarCoverage where
  covered : List String
  expansions : Grammar
  trees : List String
  priorities : List (String × ℚ)
deriving DecidableEq

/-- Go `NewGrammarCoverage`: empty coverage over a snapshot of the grammar. -/
def NewGrammarCoverage (grammar : Grammar) : GrammarCoverage :=
  { covered := [], expansions := grammar, trees := [], priorities := [] }

/-- The per-expansion total Go `updatePriorities` computes first: the sum
of the covered counts of every key whose parsed symbol is `symbol`. -/
def symbolCoverage (covered : List String) (symbol : String) : Nat :=
  covered.countP (fun k => (parseExpansionKey k).1 == symbol)

/-- The priority Go `updatePriorities` stores for one expansion of one
symbol: 1 for an uncovered expansion, otherwise `1 - count/total` with the
symbol's total clamped to 1 when zero. -/
def prio (covered : List String) (symbol expansion : String) : ℚ :=
  let total0 := symbolCoverage covered symbol
  let total : ℚ := if total0 = 0 then 1 else (total0 : ℚ)
  let count := covered.count (expansionKey symbol expansion)
  if count = 0 then 1 else 1 - (count : ℚ) / total

/-- Go `updatePriorities`: rebuild the priority map over every expansion
of every snapshot symbol from the current covered counts. -/
def updatePriorities (expansions : Grammar) (covered : List String) :
    List (String × ℚ) :=
  (expansions.map (fun se =>
    se.2.map (fun e => (expansionKey se.1 e, prio covered se.1 e)))).flatten

/-- Go `TrackExpansion`: increment the key's covered count and recompute
the priorities. -/
def TrackExpansion (gc : GrammarCoverage) (symbol expansion : String) :
    GrammarCoverage :=
  let covered := expansionKey symbol expansion :: gc.covered
  { gc with covered := covered,
            priorities := updatePriorities gc.expansions covered }

/-- Go `TrackDerivationTree`: record the serialised tree, increment every
key the tree used, and recompute the priorities. -/
def TrackDerivationTree (gc : GrammarCoverage) (t : DerivationTree) :
    GrammarCoverage :=
  let covered := t.GetAllExpansions ++ gc.covered
  { gc with trees := t.ToString :: gc.trees,
            covered := covered,
            priorities := updatePriorities gc.expansions covered }

/-- Go `GetCoveragePriority`: the stored priority, or 1 when the key has
never been given one. -/
def GetCoveragePriority (gc : GrammarCoverage) (symbol expansion : String) : ℚ :=
  match List.lookup (expansionKey symbol expansion) gc.priorities with
  | some p => p
  | none => 1

/-- Go `HasExpansion`: whether the key's covered count is positive. -/
def HasExpansion (gc : GrammarCoverage) (key : String) : Bool :=
  gc.covered.count key != 0

/-- Go `Reset`: clear the covered counts. Nothing else of the tracker is
touched (in particular the stored `priorities` survive). -/
def Reset (gc : GrammarCoverage) : GrammarCoverage :=
  { gc with covered := [] }

/-- One recorded tracker interaction, for quantifying over arbitrary
sequences of `TrackExpansion` / `TrackDerivationTree` calls. -/
inductive TrackEvent where
  | exp (symbol expansion : String)
  | tree (t : DerivationTree)

def applyEvent (gc : GrammarCoverage) : TrackEvent → GrammarCoverage
  | .exp s e => TrackExpansion gc s e
  | .tree t => TrackDerivationTree gc t

def applyEvents (gc : GrammarCoverage) (es : List TrackEvent) : GrammarCoverage :=
  es.foldl applyEvent gc

/-! ## Random source -/

/-- The process-global `math/rand` source, as the explicit streams of the
draws it will produce: `floats` feeds `rand.Float64` (each value lies in
`[0,1)`; theorems add that hypothesis where it matters) and `ints` feeds
`rand.Intn` (reduced mod the bound, so every possible return value of
`rand.Intn n` is `k % n` for some `k`, and conversely). -/
structure Rng where
  floats : List ℚ
  ints : List Nat
deriving DecidableEq

/-- One `rand.Float64()` draw. -/
def nextFloat (rng : Rng) : ℚ × Rng :=
  (rng.floats.headD 0, { rng with floats := rng.floats.tail })

/-- One `rand.Intn n` draw. -/
def nextInt (rng : Rng) (n : Nat) : Nat × Rng :=
  (rng.ints.headD 0 % n, { rng with ints := rng.ints.tail })

/-! ## Coverage-weighted generator (src/unnamed/part_000) -/

/-- The cumulative-sum walk inside Go `chooseExpansion`: running down the
priority/expansion pairs, accumulate the sum and return the first
expansion whose partial sum satisfies `r <= sum`; `none` when the loop
falls through. -/
def cumulativeWalk (r : ℚ) : ℚ → List (ℚ × String) → Option String
  | _, [] => none
  | sum, pe :: rest =>
    let s := sum + pe.1
    if r ≤ s then some pe.2 else cumulativeWalk r s rest

/-- Go `chooseExpansion` of the grammar-coverage fuzzer: weighted choice by
priority, with a uniform fallback when the total priority is not positive
or the walk falls through. -/
def chooseExpansion (gc : GrammarCoverage) (symbol : String)
    (expansions : List String) (rng : Rng) : String × Rng :=
  let priorities := expansions.map (fun e => GetCoveragePriority gc symbol e)
  let totalPriority := priorities.sum
  if 0 < totalPriority then
    let fr := nextFloat rng
    let r := fr.1 * totalPriority
    match cumulativeWalk r 0 (priorities.zip expansions) with
    | some e => (e, fr.2)
    | none =>
      let ir := nextInt fr.2 expansions.length
      (expansions.getD ir.1 "", ir.2)
  else
    let ir := nextInt rng expansions.length
    (expansions.getD ir.1 "", ir.2)

/-- An expansion chooser: what `generateDerivationTree` is parameterised
over (the grammar-coverage fuzzer and the systematic fuzzer each define
their own `chooseExpansion` and otherwise share `generateDerivationTree`
verbatim). -/
abbrev Chooser :=
  GrammarCoverage → String → List String → Rng → String × Rng

/-- The children loop of Go `generateDerivationTree`: for each
whitespace-token of the expansion, recurse (through `recur`, the generator
one depth deeper) on non-terminals and append a terminal leaf otherwise. -/
def genChildren
    (recur : String → GrammarCoverage → Rng →
      DerivationTree × GrammarCoverage × Rng) :
    List String → GrammarCoverage → Rng →
      List DerivationTree × GrammarCoverage × Rng
  | [], gc, rng => ([], gc, rng)
  | part :: parts, gc, rng =>
    if isNonterminal part then
      let r1 := recur part gc rng
      let r2 := genChildren recur parts r1.2.1 r1.2.2
      (r1.1 :: r2.1, r2.2)
    else
      let r2 := genChildren recur parts gc rng
      (DerivationTree.mk part [] part "" :: r2.1, r2.2)

/-- Go `generateDerivationTree`, fuel-indexed: `fuel` stands for
`maxDepth + 1 - depth`, so `fuel = 0` is exactly the Go guard
`depth > maxDepth` (the sentinel leaf) and each child runs at one less
fuel. A symbol with no expansions in the grammar becomes a terminal leaf;
otherwise the chooser picks an expansion, the tracker records it, and the
children are generated left to right. -/
def generateDerivationTree (g : Grammar) (choose : Chooser) :
    Nat → String → GrammarCoverage → Rng →
      DerivationTree × GrammarCoverage × Rng
  | 0 => fun symbol gc rng =>
      (DerivationTree.mk symbol [] "max_depth_reached" "", gc, rng)
  | fuel + 1 => fun symbol gc rng =>
    match lookupRule g symbol with
    | [] => (DerivationTree.mk symbol [] symbol "", gc, rng)
    | e0 :: es =>
      let ce := choose gc symbol (e0 :: es) rng
      let gc1 := TrackExpansion gc symbol ce.1
      let cr := genChildren (generateDerivationTree g choose fuel)
        (fields ce.1) gc1 ce.2
      (DerivationTree.mk symbol cr.1 "" ce.1, cr.2)

/-! ## Systematic generator (src/internal/fuzzer/systematic_coverage_fuzzer.go) -/

/-- Go `computeExpansionCoverage`, fuel-indexed by the depth argument: at
depth 0 only the symbol's direct keys; at positive depth also the keys
reachable through the non-terminal tokens of each expansion one depth
lower. The Go code accumulates into a set; the list here has the same
members (only emptiness and membership are ever consulted). -/
def computeExpansionCoverage (g : Grammar) : Nat → String → List String
  | 0 => fun symbol =>
      (lookupRule g symbol).map (fun e => expansionKey symbol e)
  | d + 1 => fun symbol =>
      ((lookupRule g symbol).map (fun e =>
        expansionKey symbol e ::
          (((fields e).filter isNonterminal).map
            (computeExpansionCoverage g d)).flatten)).flatten

/-- Go `getMaxExpansionCoverage`: read the cache precomputed for every
grammar symbol and every depth up to the effective maximum (the configured
`MaxDepth`, or 10 when that is not positive); an empty set for anything
outside the cache. -/
def getMaxExpansionCoverage (g : Grammar) (cfgMaxDepth : Nat)
    (symbol : String) (depth : Nat) : List String :=
  let maxD := if cfgMaxDepth = 0 then 10 else cfgMaxDepth
  if (g.map Prod.fst).contains symbol ∧ depth ≤ maxD then
    computeExpansionCoverage g depth symbol
  else []

/-- Go `chooseExpansion` of the systematic fuzzer: collect the expansions
whose key is not yet covered (each also checked against the non-emptiness
of the cached reachable-key set at `getCurrentDepth`, which the source
fixes at the configured `MaxDepth`); draw uniformly from those when any,
otherwise uniformly from all expansions. -/
def chooseExpansionSys (g : Grammar) (cfgMaxDepth : Nat)
    (gc : GrammarCoverage) (symbol : String) (expansions : List String)
    (rng : Rng) : String × Rng :=
  let uncovered := expansions.filter (fun e =>
    !HasExpansion gc (expansionKey symbol e) &&
      !(getMaxExpansionCoverage g cfgMaxDepth symbol cfgMaxDepth).isEmpty)
  if uncovered.isEmpty then
    let ir := nextInt rng expansions.length
    (expansions.getD ir.1 "", ir.2)
  else
    let ir := nextInt rng uncovered.length
    (uncovered.getD ir.1 "", ir.2)

/-- One `Run` of the systematic fuzzer, up to HTTP execution (which does
not touch grammar coverage): generate a derivation tree from `<start>` at
depth 0 and track it. -/
def runSystematic (g : Grammar) (cfgMaxDepth : Nat) (gc : GrammarCoverage)
    (rng : Rng) : DerivationTree × GrammarCoverage × Rng :=
  let r := generateDerivationTree g (chooseExpansionSys g cfgMaxDepth)
    (cfgMaxDepth + 1) "<start>" gc rng
  (r.1, TrackDerivationTree r.2.1 r.1, r.2.2)

/-! ## Mutation-coverage scheduler (src/internal/fuzzer/web_form_fuzzer.go) -/

/-- Go `MutationCoverageFuzzer`'s scheduler state: the population (ordered,
duplicates possible), the energies map (association list read with the Go
map default 0), the running `totalEnergy`, the seen coverage fingerprints,
and the population cap `maxPopulation` (`config.MaxCorpus`). -/
structure MutationCoverageFuzzer where
  population : List String
  coverageSeen : List String
  energies : List (String × Int)
  totalEnergy : Int
  maxPopulation : Nat
deriving DecidableEq

/-- Go map read `f.energies[input]` (zero value 0 when absent). -/
def energyOf (f : MutationCoverageFuzzer) (input : String) : Int :=
  (List.lookup input f.energies).getD 0

/-- Go map write `m[k] = v` on the association-list model: the unique
binding for `k` becomes `v`. -/
def mapSet (l : List (String × Int)) (k : String) (v : Int) :
    List (String × Int) :=
  (k, v) :: l.filter (fun p => p.1 != k)

/-- Go `NewMutationCoverageFuzzer`: empty population, empty maps, zero
total energy, cap from `config.MaxCorpus`. -/
def newMutationCoverageFuzzer (maxCorpus : Nat) : MutationCoverageFuzzer :=
  { population := [], coverageSeen := [], energies := [], totalEnergy := 0,
    maxPopulation := maxCorpus }

/-- Go `addToPopulation`: append the input, set its energy to 1, and
increase the total energy by 1. -/
def addToPopulation (f : MutationCoverageFuzzer) (input : String) :
    MutationCoverageFuzzer :=
  { f with population := f.population ++ [input],
           energies := mapSet f.energies input 1,
           totalEnergy := f.totalEnergy + 1 }

/-- Go `assignEnergy`: record the new energy and adjust the total by the
difference to the old one. -/
def assignEnergy (f : MutationCoverageFuzzer) (input : String)
    (energy : Int) : MutationCoverageFuzzer :=
  { f with energies := mapSet f.energies input energy,
           totalEnergy := f.totalEnergy - energyOf f input + energy }

/-- Go `prunePopulation`: nothing happens while the population is within
the cap; otherwise sort the (input, energy) entries descending by energy
(`sort.Slice` leaves the order of ties unspecified; a concrete comparison
sort models it), keep the first `maxPopulation`, and rebuild the total
energy and the energies map from the kept entries. -/
def prunePopulation (f : MutationCoverageFuzzer) : MutationCoverageFuzzer :=
  if f.population.length ≤ f.maxPopulation then f
  else
    let entries := f.population.map (fun input => (input, energyOf f input))
    let sorted := entries.insertionSort (fun a b => b.2 ≤ a.2)
    let kept := sorted.take f.maxPopulation
    { f with population := kept.map Prod.fst,
             totalEnergy := (kept.map Prod.snd).sum,
             energies := (kept.map Prod.fst).map
               (fun input => (input, energyOf f input)) }

/-- The roulette walk inside Go `selectInput`: accumulate each population
entry's energy in order and return the first entry whose running sum
exceeds the drawn point; `none` when the loop falls through. -/
def rouletteWalk (energies : List (String × Int)) (point : Int) :
    Int → List String → Option String
  | _, [] => none
  | sum, input :: rest =>
    let s := sum + (List.lookup input energies).getD 0
    if point < s then some input else rouletteWalk energies point s rest

/-- Go `selectInput`. An empty population reads `SeedInputs[0]`, which
panics when the seed list is empty — modelled as `none`; likewise
`rand.Intn(totalEnergy)` panics when the total energy is not positive.
Otherwise roulette-wheel selection with the last entry as fallback. -/
def selectInput (f : MutationCoverageFuzzer) (seeds : List String)
    (rng : Rng) : Option (String × Rng) :=
  if f.population.isEmpty then
    match seeds with
    | [] => none
    | s :: _ => some (s, rng)
  else if f.totalEnergy ≤ 0 then none
  else
    let ir := nextInt rng f.totalEnergy.toNat
    match rouletteWalk f.energies (ir.1 : Int) 0 f.population with
    | some input => some (input, ir.2)
    | none => (f.population.getLast?).map (fun input => (input, ir.2))

/-- Go `calculateCoverage`: the fingerprint string
`"<status>-<contentLength>"`. -/
def calculateCoverage (statusCode contentLength : Int) : String :=
  toString statusCode ++ "-" ++ toString contentLength

/-- Go `isNewCoverage`: record-and-report whether this fingerprint is new. -/
def isNewCoverage (f : MutationCoverageFuzzer) (coverage : String) :
    Bool × MutationCoverageFuzzer :=
  if f.coverageSeen.contains coverage then (false, f)
  else (true, { f with coverageSeen := coverage :: f.coverageSeen })

/-- Apply `k` rounds of the mutation operator (Go's `mutate`, abstracted:
URL parsing and the operator table live outside the scheduler core). -/
def applyMutations (mutate1 : String → Rng → String × Rng) :
    Nat → String → Rng → String × Rng
  | 0, s, rng => (s, rng)
  | k + 1, s, rng =>
    let r := mutate1 s rng
    applyMutations mutate1 k r.1 r.2

/-- The iteration body and loop of Go `MutationCoverageFuzzer.Run` after
seeding, parameterised over the mutation operator and the HTTP test
(`test` yields the response's status code and content length, or `none`
for a transport error, which the loop skips). `none` overall models a
panic inside `selectInput`. -/
def mutationCoverageLoop (mutate1 : String → Rng → String × Rng)
    (test : String → Option (Int × Int)) (minMutations maxMutations : Nat)
    (seeds : List String) :
    Nat → MutationCoverageFuzzer → Rng → Option MutationCoverageFuzzer
  | 0, f, _ => some f
  | n + 1, f, rng =>
    match selectInput f seeds rng with
    | none => none
    | some (input, rng1) =>
      let nm :=
        if minMutations < maxMutations then
          let ir := nextInt rng1 (maxMutations - minMutations + 1)
          (minMutations + ir.1, ir.2)
        else (minMutations, rng1)
      let mr := applyMutations mutate1 nm.1 input nm.2
      match test mr.1 with
      | none => mutationCoverageLoop mutate1 test minMutations maxMutations
          seeds n f mr.2
      | some resp =>
        let coverage := calculateCoverage resp.1 resp.2
        let nc := isNewCoverage f coverage
        let f2 :=
          if nc.1 then assignEnergy (addToPopulation nc.2 mr.1) mr.1 10
          else assignEnergy nc.2 input 1
        mutationCoverageLoop mutate1 test minMutations maxMutations seeds n
          (prunePopulation f2) mr.2

/-- Go `MutationCoverageFuzzer.Run`: seed the population with every
configured seed input, then run `numRequests` iterations of the loop.
No emptiness check on the seed list happens anywhere on this path. -/
def runMutationCoverage (mutate1 : String → Rng → String × Rng)
    (test : String → Option (Int × Int)) (minMutations maxMutations : Nat)
    (seeds : List String) (maxCorpus : Nat) (numRequests : Nat) (rng : Rng) :
    Option MutationCoverageFuzzer :=
  mutationCoverageLoop mutate1 test minMutations maxMutations seeds
    numRequests (seeds.foldl addToPopulation (newMutationCoverageFuzzer maxCorpus))
    rng

/-- The energy bookkeeping invariant of the scheduler (spec §8): the
running total equals the energies of the population entries, summed with
multiplicity. -/
def energyInvariant (f : MutationCoverageFuzzer) : Prop :=
  f.totalEnergy = (f.population.map (energyOf f)).sum

instance (f : MutationCoverageFuzzer) : Decidable (energyInvariant f) := by
  unfold energyInvariant; infer_instance

/-! ## Shared concrete grammars of the spec's scenarios -/

/-- The spec's scenario grammar with two digit expansions. -/
def G2 : Grammar := [("<start>", ["<d>"]), ("<d>", ["0", "1"])]

/-- The spec's self-looping grammar. -/
def Gloop : Grammar := [("<start>", ["<start>"])]

/-- The spec's scenario-1 grammar (note: the tokens of `"a b"` carry no
angle brackets). -/
def G8 : Grammar := [("<start>", ["a b"]), ("<a>", ["x"]), ("<b>", ["y"])]

/-! ## Tracker lemmas (towards C1 and C7) -/

/-- The stored priorities are those computed from the current covered
multiset — or nothing has ever been tracked. -/
def Synced (gc : GrammarCoverage) : Prop :=
  gc.priorities = updatePriorities gc.expansions gc.covered ∨
    (gc.priorities = [] ∧ gc.covered = [])

/-- The tracker after the spec's five `track_expansion("<d>","0")` calls. -/
def gcAfterFive : GrammarCoverage :=
  applyEvents (NewGrammarCoverage G2) (List.replicate 5 (.exp "<d>" "0"))

/-- The chain the generator produces from the self-looping grammar:
`fuel` internal nodes ending in the sentinel leaf. -/
def chainTree : Nat → DerivationTree
  | 0 => .mk "<start>" [] "max_depth_reached" ""
  | n + 1 => .mk "<start>" [chainTree n] "" "<start>"

/-- In-order concatenation of a list of strings (what "concatenating the
leaf values" means). -/
def concatAll : List String → String
  | [] => ""
  | s :: ss => s ++ concatAll ss

/-- The trees the generator can produce: every childless node either has a
non-empty value or its value repeats its symbol. (The only childless nodes
the generator builds are the sentinel, terminal-symbol leaves and
terminal-token leaves; an internal node always has at least one child
because its chosen expansion has at least one token.) -/
inductive GoodTree : DerivationTree → Prop where
  | leaf (s v e : String) : (v ≠ "" ∨ s = v) → GoodTree (.mk s [] v e)
  | node (s v e : String) (c : DerivationTree) (cs : List DerivationTree) :
      GoodTree c → (∀ t ∈ cs, GoodTree t) →
      GoodTree (.mk s (c :: cs) v e)

theorem applyEvent_expansions (gc : GrammarCoverage) (ev : TrackEvent) :
    (applyEvent gc ev).expansions = gc.expansions := by
  cases ev <;> rfl

theorem applyEvents_expansions (gc : GrammarCoverage) (es : List TrackEvent) :
    (applyEvents gc es).expansions = gc.expansions := by
  induction es generalizing gc with
  | nil => rfl
  | cons e es ih =>
    simpa [applyEvents, applyEvent_expansions] using
      (ih (applyEvent gc e)).trans (applyEvent_expansions gc e)

theorem applyEvent_synced (gc : GrammarCoverage) (ev : TrackEvent) :
    Synced (applyEvent gc ev) := by
  cases ev <;> exact Or.inl rfl

theorem synced_applyEvents (gc : GrammarCoverage) (hgc : Synced gc)
    (es : List TrackEvent) : Synced (applyEvents gc es) := by
  induction es generalizing gc with
  | nil => exact hgc
  | cons e es ih => exact ih (applyEvent gc e) (applyEvent_synced gc e)

theorem synced_new (g : Grammar) : Synced (NewGrammarCoverage g) :=
  Or.inr ⟨rfl, rfl⟩

theorem lookup_append_of_none {k : String} {l1 l2 : List (String × ℚ)}
    (h : List.lookup k l1 = none) :
    List.lookup k (l1 ++ l2) = List.lookup k l2 := by
  induction l1 with
  | nil => rfl
  | cons p t ih =>
    rcases p with ⟨a, b⟩
    by_cases hk : k = a
    · simp [List.lookup, hk] at h
    · simp only [List.cons_append, List.lookup_cons] at h ⊢
      have : (k == a) = false := by simp [hk]
      rw [this] at h ⊢
      exact ih h

theorem lookup_append_of_some {k : String} {l1 l2 : List (String × ℚ)}
    {v : ℚ} (h : List.lookup k l1 = some v) :
    List.lookup k (l1 ++ l2) = some v := by
  induction l1 with
  | nil => simp [List.lookup] at h
  | cons p t ih =>
    rcases p with ⟨a, b⟩
    simp only [List.cons_append, List.lookup_cons] at h ⊢
    by_cases hk : k = a
    · have : (k == a) = true := by simp [hk]
      rw [this] at h ⊢; exact h
    · have : (k == a) = false := by simp [hk]
      rw [this] at h ⊢
      exact ih h

theorem lookup_block_some {s1 e : String} {x1 covered : List String}
    (hr : ∀ x ∈ x1, parseExpansionKey (expansionKey s1 x) = (s1, x))
    (he : e ∈ x1) :
    List.lookup (expansionKey s1 e)
      (x1.map (fun x => (expansionKey s1 x, prio covered s1 x)))
      = some (prio covered s1 e) := by
  induction x1 with
  | nil => cases he
  | cons x xs ih =>
    simp only [List.map_cons, List.lookup_cons]
    by_cases hk : expansionKey s1 e = expansionKey s1 x
    · have hx : x = e := by
        have h1 := hr x (List.mem_cons_self x xs)
        have h2 : parseExpansionKey (expansionKey s1 e) = (s1, e) := by
          rcases List.mem_cons.mp he with h | hm
          · rw [h]; exact hr x (List.mem_cons_self x xs)
          · exact hr e (List.mem_cons_of_mem _ hm)
        rw [← hk, h2] at h1
        exact ((Prod.mk.injEq .. ▸ h1).2).symm
      have : (expansionKey s1 e == expansionKey s1 x) = true := by simp [hk]
      rw [this]
      simp [hx]
    · have : (expansionKey s1 e == expansionKey s1 x) = false := by simp [hk]
      rw [this]
      have he' : e ∈ xs := by
        rcases List.mem_cons.mp he with rfl | hm
        · exact absurd rfl hk
        · exact hm
      exact ih (fun y hy => hr y (List.mem_cons_of_mem _ hy)) he'

theorem lookup_block_none {s1 sym e : String} {x1 covered : List String}
    (hne : ∀ x ∈ x1, expansionKey s1 x ≠ expansionKey sym e) :
    List.lookup (expansionKey sym e)
      (x1.map (fun x => (expansionKey s1 x, prio covered s1 x))) = none := by
  induction x1 with
  | nil => rfl
  | cons x xs ih =>
    simp only [List.map_cons, List.lookup_cons]
    have : (expansionKey sym e == expansionKey s1 x) = false := by
      simp [Ne.symm (hne x (List.mem_cons_self x xs))]
    rw [this]
    exact ih (fun y hy => hne y (List.mem_cons_of_mem _ hy))

theorem lookup_updatePriorities {G : Grammar} {covered : List String}
    {sym e : String} {exps : List String}
    (hr : ∀ p ∈ G, ∀ x ∈ p.2, parseExpansionKey (expansionKey p.1 x) = (p.1, x))
    (hnd : (G.map Prod.fst).Nodup)
    (hmem : (sym, exps) ∈ G) (he : e ∈ exps) :
    List.lookup (expansionKey sym e) (updatePriorities G covered)
      = some (prio covered sym e) := by
  induction G with
  | nil => cases hmem
  | cons p G' ih =>
    rcases p with ⟨s1, x1⟩
    have hblock : updatePriorities ((s1, x1) :: G') covered =
        x1.map (fun x => (expansionKey s1 x, prio covered s1 x)) ++
          updatePriorities G' covered := by
      simp [updatePriorities]
    rw [hblock]
    rcases List.mem_cons.mp hmem with heq | hm
    · obtain ⟨h1, h2⟩ := Prod.mk.injEq .. ▸ heq
      subst h1; subst h2
      exact lookup_append_of_some
        (lookup_block_some (fun x hx => hr (sym, exps) (List.mem_cons_self _ _) x hx) he)
    · have hsne : s1 ≠ sym := by
        intro hcontra
        subst hcontra
        exact (List.nodup_cons.mp (by simpa using hnd)).1
          (List.mem_map_of_mem Prod.fst hm)
      have hparse : parseExpansionKey (expansionKey sym e) = (sym, e) :=
        hr (sym, exps) (List.mem_cons_of_mem _ hm) e he
      have hne : ∀ x ∈ x1, expansionKey s1 x ≠ expansionKey sym e := by
        intro x hx hcontra
        have h1 := hr (s1, x1) (List.mem_cons_self _ _) x hx
        rw [hcontra, hparse] at h1
        exact hsne ((Prod.mk.injEq .. ▸ h1).1.symm)
      rw [lookup_append_of_none (lookup_block_none hne)]
      exact ih (fun q hq => hr q (List.mem_cons_of_mem _ hq))
        (by simpa using (List.nodup_cons.mp (by simpa using hnd)).2) hm

theorem getCoveragePriority_eq_prio {gc : GrammarCoverage} {G : Grammar}
    {sym e : String} {exps : List String}
    (hsy : Synced gc) (hexp : gc.expansions = G)
    (hr : ∀ p ∈ G, ∀ x ∈ p.2, parseExpansionKey (expansionKey p.1 x) = (p.1, x))
    (hnd : (G.map Prod.fst).Nodup)
    (hmem : (sym, exps) ∈ G) (he : e ∈ exps) :
    GetCoveragePriority gc sym e = prio gc.covered sym e := by
  rcases hsy with h | ⟨h1, h2⟩
  · rw [GetCoveragePriority, h, hexp,
      lookup_updatePriorities hr hnd hmem he]
  · rw [GetCoveragePriority, h1, h2]
    simp [List.lookup, prio]

theorem prio_bounds {covered : List String} {sym e : String}
    (hk : (parseExpansionKey (expansionKey sym e)).1 = sym) :
    0 ≤ prio covered sym e ∧ prio covered sym e ≤ 1 := by
  have hct : covered.count (expansionKey sym e) ≤ symbolCoverage covered sym := by
    rw [List.count_eq_countP]
    exact List.countP_mono_left (fun x hx hbeq => by
      have : x = expansionKey sym e := by simpa using hbeq
      subst this
      simp [hk])
  by_cases hc : covered.count (expansionKey sym e) = 0
  · simp [prio, hc]
  · have hc1 : 1 ≤ covered.count (expansionKey sym e) := Nat.one_le_iff_ne_zero.mpr hc
    have ht1 : 1 ≤ symbolCoverage covered sym := le_trans hc1 hct
    have htne : ¬ symbolCoverage covered sym = 0 := by omega
    rw [prio]
    simp only [hc, if_false, htne]
    have htq : (0 : ℚ) < (symbolCoverage covered sym : ℚ) := by
      exact_mod_cast Nat.lt_of_lt_of_le Nat.zero_lt_one ht1
    have hcq : (covered.count (expansionKey sym e) : ℚ) ≤
        (symbolCoverage covered sym : ℚ) := by exact_mod_cast hct
    have hcq0 : (0 : ℚ) < (covered.count (expansionKey sym e) : ℚ) := by
      exact_mod_cast Nat.lt_of_lt_of_le Nat.zero_lt_one hc1
    constructor
    · have : (covered.count (expansionKey sym e) : ℚ) /
          (symbolCoverage covered sym : ℚ) ≤ 1 := by
        rw [div_le_one htq]; exact hcq
      linarith
    · have : 0 < (covered.count (expansionKey sym e) : ℚ) /
          (symbolCoverage covered sym : ℚ) := div_pos hcq0 htq
      linarith

theorem prio_of_count_zero {covered : List String} {sym e : String}
    (h : covered.count (expansionKey sym e) = 0) :
    prio covered sym e = 1 := by
  simp [prio, h]

/-- C1 (amended): over a snapshot whose symbols contain no occurrence of
the separator `" -> "` (stated as: every snapshot key round-trips through
`parseExpansionKey`) and are pairwise distinct (a Go map's keys are),
after any sequence of `TrackExpansion` / `TrackDerivationTree` calls and
no `Reset`, the priority of every listed expansion of every snapshot
symbol lies in `[0, 1]`, and is exactly 1 whenever its covered count is
zero. -/
theorem C1_priority_bounds (G : Grammar) (events : List TrackEvent)
    (sym : String) (exps : List String) (e : String)
    (hr : ∀ p ∈ G, ∀ x ∈ p.2, parseExpansionKey (expansionKey p.1 x) = (p.1, x))
    (hnd : (G.map Prod.fst).Nodup)
    (hmem : (sym, exps) ∈ G) (he : e ∈ exps) :
    (0 ≤ GetCoveragePriority (applyEvents (NewGrammarCoverage G) events) sym e ∧
      GetCoveragePriority (applyEvents (NewGrammarCoverage G) events) sym e ≤ 1) ∧
    ((applyEvents (NewGrammarCoverage G) events).covered.count
        (expansionKey sym e) = 0 →
      GetCoveragePriority (applyEvents (NewGrammarCoverage G) events) sym e = 1) := by
  have hsy : Synced (applyEvents (NewGrammarCoverage G) events) :=
    synced_applyEvents _ (synced_new G) events
  have hexp : (applyEvents (NewGrammarCoverage G) events).expansions = G :=
    applyEvents_expansions _ events
  have hmain := getCoveragePriority_eq_prio hsy hexp hr hnd hmem he
  have hk : (parseExpansionKey (expansionKey sym e)).1 = sym := by
    rw [hr (sym, exps) hmem e he]
  refine ⟨hmain ▸ prio_bounds hk, fun hz => ?_⟩
  rw [hmain]
  exact prio_of_count_zero hz

/-- C1 witness: the amended statement instantiated at the two-digit
grammar after one tracked expansion. -/
theorem C1_priority_bounds_witness :
    (0 ≤ GetCoveragePriority
        (applyEvents (NewGrammarCoverage G2) [.exp "<d>" "0"]) "<d>" "1" ∧
      GetCoveragePriority
        (applyEvents (NewGrammarCoverage G2) [.exp "<d>" "0"]) "<d>" "1" ≤ 1) ∧
    ((applyEvents (NewGrammarCoverage G2) [.exp "<d>" "0"]).covered.count
        (expansionKey "<d>" "1") = 0 →
      GetCoveragePriority
        (applyEvents (NewGrammarCoverage G2) [.exp "<d>" "0"]) "<d>" "1" = 1) :=
  C1_priority_bounds G2 [.exp "<d>" "0"] "<d>" ["0", "1"] "1"
    (by decide) (by decide) (by decide) (by decide)

/-- C1 counterexample: with the snapshot symbol `"<a -> b>"` (which itself
contains the separator), two tracked expansions drive the stored priority
to `-1`, outside `[0, 1]`: `updatePriorities` attributes the counts to the
mis-parsed symbol `"<a"`, so the symbol total stays 0 and is clamped to 1
while the count is 2. -/
theorem C1_counterexample :
    GetCoveragePriority
      (applyEvents (NewGrammarCoverage [("<a -> b>", ["x"])])
        [.exp "<a -> b>" "x", .exp "<a -> b>" "x"]) "<a -> b>" "x" < 0 := by
  norm_num +decide [GetCoveragePriority, applyEvents, applyEvent,
    TrackExpansion, NewGrammarCoverage, updatePriorities, prio,
    symbolCoverage, expansionKey, List.lookup]

/-! ## C7: Reset and the stored priorities -/

/-- C7 (the code at the failing input): track `("<d>", "0")` once over the
two-digit grammar, then `Reset`. The covered counts are cleared and the
snapshot is intact, but `Reset` never touches the stored priorities, so
the now-uncovered expansion `"0"` of `"<d>"` still reads its stale
priority 0 instead of 1. -/
theorem C7_reset_keeps_stale_priorities :
    (Reset (TrackExpansion (NewGrammarCoverage G2) "<d>" "0")).covered = [] ∧
    (Reset (TrackExpansion (NewGrammarCoverage G2) "<d>" "0")).expansions = G2 ∧
    GetCoveragePriority
      (Reset (TrackExpansion (NewGrammarCoverage G2) "<d>" "0")) "<d>" "0" = 0 := by
  refine ⟨rfl, rfl, ?_⟩
  norm_num +decide [GetCoveragePriority, Reset, TrackExpansion,
    NewGrammarCoverage, updatePriorities, prio, symbolCoverage, expansionKey,
    G2, List.lookup]

/-! ## C2: priorities after five tracked expansions, and the weighted choice -/


/-- C2 (amended): after five tracked `("<d>", "0")` expansions the
priorities are 0 for `"0"` and 1 for `"1"`, and the weighted choice picks
`"1"` for every uniform draw u with `0 < u < T` (`T = 1` here) — but not
for the boundary draw `u = 0`, which `rand.Float64` can return: the walk's
`r <= sum` comparison then accepts the zero-priority expansion `"0"`
(see the counterexample). -/
theorem C2_priorities_and_choice :
    GetCoveragePriority gcAfterFive "<d>" "0" = 0 ∧
    GetCoveragePriority gcAfterFive "<d>" "1" = 1 ∧
    ∀ (u : ℚ) (ints : List Nat), 0 < u → u < 1 →
      (chooseExpansion gcAfterFive "<d>" ["0", "1"] ⟨[u], ints⟩).1 = "1" := by
  have hp : GetCoveragePriority gcAfterFive "<d>" "0" = 0 := by
    norm_num +decide [gcAfterFive, GetCoveragePriority, applyEvents,
      applyEvent, TrackExpansion, NewGrammarCoverage, updatePriorities, prio,
      symbolCoverage, expansionKey, G2, List.lookup]
  have hq : GetCoveragePriority gcAfterFive "<d>" "1" = 1 := by
    norm_num +decide [gcAfterFive, GetCoveragePriority, applyEvents,
      applyEvent, TrackExpansion, NewGrammarCoverage, updatePriorities, prio,
      symbolCoverage, expansionKey, G2, List.lookup]
  refine ⟨hp, hq, fun u ints hu0 hu1 => ?_⟩
  simp only [chooseExpansion, List.map_cons, List.map_nil, hp, hq,
    List.sum_cons, List.sum_nil, List.zip_cons_cons, List.zip_nil_right,
    nextFloat, nextInt, cumulativeWalk, List.headD, List.tail]
  norm_num
  rw [if_neg (by linarith), if_pos (by linarith)]

/-- C2 counterexample: the draw `u = 0` lies in `[0, T)` yet the weighted
choice returns `"0"` — the expansion with priority 0 — because the
cumulative walk compares with `r <= sum`. -/
theorem C2_counterexample :
    (chooseExpansion gcAfterFive "<d>" ["0", "1"] ⟨[0], []⟩).1 = "0" := by
  have hp : GetCoveragePriority gcAfterFive "<d>" "0" = 0 := by
    norm_num +decide [gcAfterFive, GetCoveragePriority, applyEvents,
      applyEvent, TrackExpansion, NewGrammarCoverage, updatePriorities, prio,
      symbolCoverage, expansionKey, G2, List.lookup]
  have hq : GetCoveragePriority gcAfterFive "<d>" "1" = 1 := by
    norm_num +decide [gcAfterFive, GetCoveragePriority, applyEvents,
      applyEvent, TrackExpansion, NewGrammarCoverage, updatePriorities, prio,
      symbolCoverage, expansionKey, G2, List.lookup]
  simp only [chooseExpansion, List.map_cons, List.map_nil, hp, hq,
    List.sum_cons, List.sum_nil, List.zip_cons_cons, List.zip_nil_right,
    nextFloat, nextInt, cumulativeWalk, List.headD, List.tail]
  norm_num

/-! ## C3: the depth cap on the self-looping grammar -/

/-- A single-expansion symbol is chosen deterministically by the weighted
chooser, whatever the draws: with one expansion either the walk's first
comparison fires or the uniform fallback over the one-element list does. -/
theorem chooseExpansion_singleton (gc : GrammarCoverage) (sym e : String)
    (rng : Rng) : (chooseExpansion gc sym [e] rng).1 = e := by
  simp only [chooseExpansion, List.map_cons, List.map_nil, List.sum_cons,
    List.sum_nil, List.zip_cons_cons, List.zip_nil_right, cumulativeWalk,
    nextFloat, nextInt, List.length_cons, List.length_nil, Nat.mod_one]
  split
  · by_cases hcase : rng.floats.headD 0 * (GetCoveragePriority gc sym e + 0)
        ≤ 0 + GetCoveragePriority gc sym e
    · rw [if_pos hcase]
    · rw [if_neg hcase]
      simp [Nat.mod_one]
  · simp [Nat.mod_one]


/-- On the self-looping grammar the generator always produces the chain
tree, tracking the key once per internal node, whatever the draws. -/
theorem genLoop (fuel : Nat) (gc : GrammarCoverage) (rng : Rng) :
    (generateDerivationTree Gloop chooseExpansion fuel "<start>" gc rng).1
      = chainTree fuel ∧
    (generateDerivationTree Gloop chooseExpansion fuel "<start>" gc rng).2.1.covered
      = List.replicate fuel "<start> -> <start>" ++ gc.covered := by
  induction fuel generalizing gc rng with
  | zero => exact ⟨rfl, rfl⟩
  | succ n ih =>
    rcases hc : chooseExpansion gc "<start>" ["<start>"] rng with ⟨ech, rng1⟩
    have hech : ech = "<start>" := by
      have h := chooseExpansion_singleton gc "<start>" "<start>" rng
      rw [hc] at h; exact h
    subst hech
    have hbody :
        generateDerivationTree Gloop chooseExpansion (n + 1) "<start>" gc rng
          = (let ce := chooseExpansion gc "<start>" ["<start>"] rng
             let cr := genChildren
               (generateDerivationTree Gloop chooseExpansion n)
               (fields ce.1) (TrackExpansion gc "<start>" ce.1) ce.2
             (DerivationTree.mk "<start>" cr.1 "" ce.1, cr.2)) := rfl
    have hstep :
        generateDerivationTree Gloop chooseExpansion (n + 1) "<start>" gc rng
          = (DerivationTree.mk "<start>"
              [(generateDerivationTree Gloop chooseExpansion n "<start>"
                  (TrackExpansion gc "<start>" "<start>") rng1).1] "" "<start>",
             (generateDerivationTree Gloop chooseExpansion n "<start>"
                 (TrackExpansion gc "<start>" "<start>") rng1).2.1,
             (generateDerivationTree Gloop chooseExpansion n "<start>"
                 (TrackExpansion gc "<start>" "<start>") rng1).2.2) := by
      rw [hbody, hc]
      rfl
    rw [hstep]
    obtain ⟨ih1, ih2⟩ := ih (TrackExpansion gc "<start>" "<start>") rng1
    refine ⟨?_, ?_⟩
    · simp only [chainTree]
      rw [ih1]
    · rw [show (DerivationTree.mk "<start>"
          [(generateDerivationTree Gloop chooseExpansion n "<start>"
              (TrackExpansion gc "<start>" "<start>") rng1).1] "" "<start>",
          (generateDerivationTree Gloop chooseExpansion n "<start>"
              (TrackExpansion gc "<start>" "<start>") rng1).2.1,
          (generateDerivationTree Gloop chooseExpansion n "<start>"
              (TrackExpansion gc "<start>" "<start>") rng1).2.2).2.1.covered
          = (generateDerivationTree Gloop chooseExpansion n "<start>"
              (TrackExpansion gc "<start>" "<start>") rng1).2.1.covered from rfl]
      rw [ih2]
      have hcov : (TrackExpansion gc "<start>" "<start>").covered
          = "<start> -> <start>" :: gc.covered := rfl
      rw [hcov, List.replicate_succ']
      simp [List.append_assoc]

/-- C3 (amended): the self-looping grammar at `max_depth = 3` yields, for
every draw sequence, the chain whose rightmost (only) leaf is the
`"max_depth_reached"` sentinel, and `generateDerivationTree` leaves the
covered count of `"<start> -> <start>"` at 4 — one per internal node, at
depths 0 through 3 (the claim's 3 under-counts by one; the full `Run`
doubles the count again via `TrackDerivationTree`). -/
theorem C3_depth_cap (rng : Rng) :
    (DerivationTree.GetLeafValues
      (generateDerivationTree Gloop chooseExpansion 4 "<start>"
        (NewGrammarCoverage Gloop) rng).1).getLast? = some "max_depth_reached" ∧
    (generateDerivationTree Gloop chooseExpansion 4 "<start>"
      (NewGrammarCoverage Gloop) rng).2.1.covered.count "<start> -> <start>"
      = 4 := by
  obtain ⟨h1, h2⟩ := genLoop 4 (NewGrammarCoverage Gloop) rng
  exact ⟨by rw [h1]; decide, by rw [h2]; decide⟩

/-- C3 counterexample: at `max_depth = 3` the covered count for
`"<start> -> <start>"` after generation is not 3 (it is 4). -/
theorem C3_counterexample :
    (generateDerivationTree Gloop chooseExpansion 4 "<start>"
      (NewGrammarCoverage Gloop) ⟨[], []⟩).2.1.covered.count "<start> -> <start>"
      ≠ 3 := by
  obtain ⟨-, h2⟩ := genLoop 4 (NewGrammarCoverage Gloop) ⟨[], []⟩
  rw [h2]; decide

/-! ## C8: terminal tokens in `"a b"` -/

/-- On the scenario-1 grammar the generator always produces the tree with
the two terminal leaves `a` and `b` (the tokens of `"a b"` carry no angle
brackets, so `<a>` and `<b>` are never consulted), tracking only the start
key. -/
theorem g8Run (maxDepth : Nat) (rng : Rng) :
    (generateDerivationTree G8 chooseExpansion (maxDepth + 1) "<start>"
      (NewGrammarCoverage G8) rng).1
      = DerivationTree.mk "<start>"
          [.mk "a" [] "a" "", .mk "b" [] "b" ""] "" "a b" ∧
    (generateDerivationTree G8 chooseExpansion (maxDepth + 1) "<start>"
      (NewGrammarCoverage G8) rng).2.1.covered = ["<start> -> a b"] := by
  rcases hc : chooseExpansion (NewGrammarCoverage G8) "<start>" ["a b"] rng
    with ⟨ech, rng1⟩
  have hech : ech = "a b" := by
    have h := chooseExpansion_singleton (NewGrammarCoverage G8) "<start>" "a b" rng
    rw [hc] at h; exact h
  subst hech
  have hbody :
      generateDerivationTree G8 chooseExpansion (maxDepth + 1) "<start>"
        (NewGrammarCoverage G8) rng
        = (let ce := chooseExpansion (NewGrammarCoverage G8) "<start>" ["a b"] rng
           let cr := genChildren
             (generateDerivationTree G8 chooseExpansion maxDepth)
             (fields ce.1) (TrackExpansion (NewGrammarCoverage G8) "<start>" ce.1)
             ce.2
           (DerivationTree.mk "<start>" cr.1 "" ce.1, cr.2)) := rfl
  rw [hbody, hc]
  exact ⟨rfl, rfl⟩

/-- C8 (amended): for the grammar `{<start>→["a b"], <a>→["x"], <b>→["y"]}`
a single generator run at any depth bound ≥ 2 produces the leaf string
`"ab"` — not `"xy"` — and the covered map holds exactly the key
`"<start> -> a b"` with count 1: the tokens `a` and `b` are terminals
under the `<…>` rule, so the `<a>` and `<b>` rules are never exercised. -/
theorem C8_terminal_tokens (maxDepth : Nat) (rng : Rng) (_hd : 2 ≤ maxDepth) :
    treeToString (generateDerivationTree G8 chooseExpansion (maxDepth + 1)
      "<start>" (NewGrammarCoverage G8) rng).1 = "ab" ∧
    (generateDerivationTree G8 chooseExpansion (maxDepth + 1) "<start>"
      (NewGrammarCoverage G8) rng).2.1.covered = ["<start> -> a b"] := by
  obtain ⟨h1, h2⟩ := g8Run maxDepth rng
  rw [h1]
  exact ⟨rfl, h2⟩

/-- C8 witness: the amended statement at depth bound 2 and an empty draw
stream. -/
theorem C8_terminal_tokens_witness :
    treeToString (generateDerivationTree G8 chooseExpansion 3 "<start>"
      (NewGrammarCoverage G8) ⟨[], []⟩).1 = "ab" ∧
    (generateDerivationTree G8 chooseExpansion 3 "<start>"
      (NewGrammarCoverage G8) ⟨[], []⟩).2.1.covered = ["<start> -> a b"] :=
  C8_terminal_tokens 2 ⟨[], []⟩ (by decide)

/-- C8 counterexample: at depth bound 2 the leaf string is not `"xy"` and
the key `"<a> -> x"` is never covered, contrary to the claim. -/
theorem C8_counterexample :
    treeToString (generateDerivationTree G8 chooseExpansion 3 "<start>"
      (NewGrammarCoverage G8) ⟨[], []⟩).1 ≠ "xy" ∧
    (generateDerivationTree G8 chooseExpansion 3 "<start>"
      (NewGrammarCoverage G8) ⟨[], []⟩).2.1.covered.count "<a> -> x" = 0 := by
  obtain ⟨h1, h2⟩ := g8Run 2 ⟨[], []⟩
  rw [h1, h2]
  exact ⟨by decide, by decide⟩

/-! ## C5 and C6: the mutation scheduler's energy bookkeeping -/

theorem lookup_filter_ne {l : List (String × Int)} {x y : String}
    (h : y ≠ x) :
    List.lookup y (l.filter (fun p => p.1 != x)) = List.lookup y l := by
  induction l with
  | nil => rfl
  | cons p t ih =>
    rcases p with ⟨a, b⟩
    by_cases ha : a = x
    · subst ha
      have hy : (y == a) = false := by simp [h]
      simp only [List.filter_cons, bne_self_eq_false, Bool.false_eq_true,
        if_false, List.lookup_cons, hy]
      exact ih
    · have hane : ((a, b).1 != x) = true := by simp [ha]
      simp only [List.filter_cons, hane, if_true, List.lookup_cons]
      by_cases hy : y = a
      · subst hy
        simp
      · have hyf : (y == a) = false := by simp [hy]
        simp only [hyf]
        exact ih

theorem lookup_mapSet_self (l : List (String × Int)) (x : String) (v : Int) :
    List.lookup x (mapSet l x v) = some v := by
  simp [mapSet, List.lookup_cons]

theorem lookup_mapSet_ne {l : List (String × Int)} {x y : String}
    (v : Int) (h : y ≠ x) :
    List.lookup y (mapSet l x v) = List.lookup y l := by
  simp only [mapSet, List.lookup_cons]
  have : (y == x) = false := by simp [h]
  rw [this]
  exact lookup_filter_ne h

theorem sum_map_of_count_one {l : List String} {g g' : String → Int}
    {x : String} (hx : l.count x = 1)
    (hagree : ∀ y ∈ l, y ≠ x → g' y = g y) :
    (l.map g').sum = (l.map g).sum - g x + g' x := by
  induction l with
  | nil => simp at hx
  | cons a t ih =>
    by_cases ha : a = x
    · subst ha
      rw [List.count_cons_self] at hx
      have ht : t.count a = 0 := by omega
      have hnot : a ∉ t := List.count_eq_zero.mp ht
      have hmap : t.map g' = t.map g := by
        refine List.map_congr_left (fun y hy => hagree y (List.mem_cons_of_mem _ hy) ?_)
        intro hcontra; subst hcontra; exact hnot hy
      simp only [List.map_cons, List.sum_cons, hmap]
      ring
    · have hane : x ≠ a := Ne.symm ha
      rw [List.count_cons_of_ne hane] at hx
      have hga : g' a = g a := hagree a (List.mem_cons_self a t) ha
      simp only [List.map_cons, List.sum_cons, hga,
        ih hx (fun y hy => hagree y (List.mem_cons_of_mem _ hy))]
      ring

theorem lookup_graph {l : List String} {y : String} (g : String → Int)
    (hy : y ∈ l) :
    List.lookup y (l.map (fun i => (i, g i))) = some (g y) := by
  induction l with
  | nil => cases hy
  | cons a t ih =>
    simp only [List.map_cons, List.lookup_cons]
    by_cases hya : y = a
    · subst hya
      simp
    · have : (y == a) = false := by simp [hya]
      rw [this]
      rcases List.mem_cons.mp hy with h | h
      · exact absurd h hya
      · exact ih h

/-- C5 (amended): the invariant `total_energy = Σ_{x ∈ population}
energies[x]` is preserved by `add(input)` when `input` is not already a
population entry, by `assign_energy(input, e)` when `input` occurs exactly
once in the population, and `prune()` re-establishes it unconditionally —
but it is not preserved by `add` of an input already present (see the
counterexample: the energies entry is overwritten to 1 while the total
only grows by 1). -/
theorem C5_energy_invariant (f : MutationCoverageFuzzer)
    (hinv : energyInvariant f) :
    (∀ input, input ∉ f.population →
      energyInvariant (addToPopulation f input)) ∧
    (∀ input energy, f.population.count input = 1 →
      energyInvariant (assignEnergy f input energy)) ∧
    energyInvariant (prunePopulation f) := by
  refine ⟨?_, ?_, ?_⟩
  · intro input hnot
    show (addToPopulation f input).totalEnergy
      = ((addToPopulation f input).population.map
          (energyOf (addToPopulation f input))).sum
    have hpop : (addToPopulation f input).population
        = f.population ++ [input] := rfl
    have htot : (addToPopulation f input).totalEnergy = f.totalEnergy + 1 := rfl
    have hself : energyOf (addToPopulation f input) input = 1 := by
      show (List.lookup input (mapSet f.energies input 1)).getD 0 = 1
      rw [lookup_mapSet_self]
      rfl
    have hmap : f.population.map (energyOf (addToPopulation f input))
        = f.population.map (energyOf f) := by
      refine List.map_congr_left (fun y hy => ?_)
      have hne : y ≠ input := fun hcontra => hnot (hcontra ▸ hy)
      show (List.lookup y (mapSet f.energies input 1)).getD 0
        = (List.lookup y f.energies).getD 0
      rw [lookup_mapSet_ne 1 hne]
    rw [hpop, htot, List.map_append, List.sum_append, hmap]
    simp only [List.map_cons, List.map_nil, List.sum_cons, List.sum_nil, hself]
    rw [hinv]
    ring
  · intro input energy hcount
    show (assignEnergy f input energy).totalEnergy
      = ((assignEnergy f input energy).population.map
          (energyOf (assignEnergy f input energy))).sum
    have hpop : (assignEnergy f input energy).population = f.population := rfl
    have htot : (assignEnergy f input energy).totalEnergy
        = f.totalEnergy - energyOf f input + energy := rfl
    have hself : energyOf (assignEnergy f input energy) input = energy := by
      show (List.lookup input (mapSet f.energies input energy)).getD 0 = energy
      rw [lookup_mapSet_self]
      rfl
    have hsum := @sum_map_of_count_one f.population (energyOf f)
      (energyOf (assignEnergy f input energy)) input hcount
      (fun y _ hne => by
        show (List.lookup y (mapSet f.energies input energy)).getD 0
          = (List.lookup y f.energies).getD 0
        rw [lookup_mapSet_ne energy hne])
    rw [hpop, htot, hsum, hself, hinv]
  · by_cases hle : f.population.length ≤ f.maxPopulation
    · rw [prunePopulation, if_pos hle]
      exact hinv
    · set kept :=
        ((f.population.map (fun input => (input, energyOf f input))).insertionSort
          (fun a b => b.2 ≤ a.2)).take f.maxPopulation with hkdef
      have hpop : (prunePopulation f).population = kept.map Prod.fst := by
        rw [prunePopulation, if_neg hle]
      have htot : (prunePopulation f).totalEnergy = (kept.map Prod.snd).sum := by
        rw [prunePopulation, if_neg hle]
      have hen : (prunePopulation f).energies
          = (kept.map Prod.fst).map (fun input => (input, energyOf f input)) := by
        rw [prunePopulation, if_neg hle]
      have hmem_kept : ∀ p ∈ kept, p.2 = energyOf f p.1 := by
        intro p hp
        have hp1 := List.take_subset _ _ hp
        have hp2 := (List.perm_insertionSort
          (fun a b : String × Int => b.2 ≤ a.2) _).mem_iff.mp hp1
        obtain ⟨y, _, rfl⟩ := List.mem_map.mp hp2
        rfl
      show (prunePopulation f).totalEnergy
        = ((prunePopulation f).population.map (energyOf (prunePopulation f))).sum
      rw [htot, hpop]
      have hcong : (kept.map Prod.fst).map (energyOf (prunePopulation f))
          = (kept.map Prod.fst).map (fun y => energyOf f y) := by
        refine List.map_congr_left (fun y hy => ?_)
        show (List.lookup y (prunePopulation f).energies).getD 0
          = (List.lookup y f.energies).getD 0
        rw [hen, lookup_graph (fun i => energyOf f i) hy]
        rfl
      rw [hcong, List.map_map]
      refine (congrArg List.sum (List.map_congr_left (fun p hp => ?_))).symm
      exact (hmem_kept p hp).symm

/-- C5 witness: the amended preservation statement instantiated at a fresh
scheduler. -/
theorem C5_energy_invariant_witness :
    energyInvariant (addToPopulation (newMutationCoverageFuzzer 5) "a") :=
  (C5_energy_invariant (newMutationCoverageFuzzer 5) (by decide)).1 "a"
    (by decide)

/-- C5 counterexample: `add("a")`, `assign_energy("a", 10)`, then `add("a")`
again — the duplicate add resets the shared energies entry to 1 and bumps
the total by 1, leaving `total_energy = 11` against a population sum of 2. -/
theorem C5_counterexample :
    ¬ energyInvariant
      (addToPopulation
        (assignEnergy (addToPopulation (newMutationCoverageFuzzer 100) "a")
          "a" 10) "a") := by decide

/-- C6 (the code at the failing input): with `max_corpus = 0` and one
population entry, `prune()` does not leave the state unchanged — it
empties the population, the energies map and the total energy, because the
guard `len(population) <= maxPopulation` fails and the keep-loop keeps
zero entries. -/
theorem C6_prune_with_zero_cap :
    (prunePopulation (addToPopulation (newMutationCoverageFuzzer 0) "a")).population
      = [] ∧
    (prunePopulation (addToPopulation (newMutationCoverageFuzzer 0) "a")).energies
      = [] ∧
    (prunePopulation (addToPopulation (newMutationCoverageFuzzer 0) "a")).totalEnergy
      = 0 ∧
    (addToPopulation (newMutationCoverageFuzzer 0) "a").population = ["a"] := by
  decide

/-! ## C9: the mutation-coverage run loop with no seeds -/

/-- C9 (the code at the failing input): `MutationCoverageFuzzer.Run` never
rejects an empty seed list (the guard lives only in the shadowed
`MutationFuzzer.Run`), so with no seeds the first iteration reaches
`selectInput` with an empty population and reads `SeedInputs[0]` — an
index out of range, modelled as `none`. -/
theorem C9_empty_seeds_out_of_bounds :
    runMutationCoverage (fun s rng => (s, rng)) (fun _ => none) 0 0 [] 100 1
      ⟨[], []⟩ = none ∧
    selectInput (newMutationCoverageFuzzer 100) [] ⟨[], []⟩ = none := by
  decide

/-! ## C4: the systematic generator covers both digits in two runs -/

theorem getD_mem {l : List String} {k : Nat} (h : k < l.length) (d : String) :
    l.getD k d ∈ l := by
  rw [List.getD_eq_getElem l d h]
  exact List.getElem_mem h

/-- The systematic chooser consumes exactly one `Intn` draw, on either
branch. -/
theorem sysChoose_rng (g : Grammar) (m : Nat) (gc : GrammarCoverage)
    (sym : String) (exps : List String) (rng : Rng) :
    (chooseExpansionSys g m gc sym exps rng).2
      = { rng with ints := rng.ints.tail } := by
  rw [chooseExpansionSys]
  split <;> rfl

/-- The systematic chooser returns one of the expansions it was given. -/
theorem sysChoose_mem (g : Grammar) (m : Nat) (gc : GrammarCoverage)
    (sym : String) {exps : List String} (h : exps ≠ []) (rng : Rng) :
    (chooseExpansionSys g m gc sym exps rng).1 ∈ exps := by
  rw [chooseExpansionSys]
  split
  · next hemp =>
    refine getD_mem ?_ ""
    exact Nat.mod_lt _ (List.length_pos_of_ne_nil h)
  · next hemp =>
    have hne : (exps.filter (fun e =>
        !HasExpansion gc (expansionKey sym e) &&
          !(getMaxExpansionCoverage g m sym m).isEmpty)) ≠ [] := by
      intro hcontra
      rw [hcontra] at hemp
      exact hemp rfl
    refine List.mem_of_mem_filter (getD_mem ?_ "")
    exact Nat.mod_lt _ (List.length_pos_of_ne_nil hne)

/-- A single-expansion symbol is chosen deterministically by the
systematic chooser as well. -/
theorem sysChoose_singleton (g : Grammar) (m : Nat) (gc : GrammarCoverage)
    (sym e : String) (rng : Rng) :
    (chooseExpansionSys g m gc sym [e] rng).1 = e := by
  have h := @sysChoose_mem g m gc sym [e] (by simp) rng
  simpa using h

theorem computeExpCov_d_ne :
    ∀ d : Nat, (computeExpansionCoverage G2 d "<d>").isEmpty = false
  | 0 => rfl
  | _ + 1 => rfl

theorem getMax_d_ne (n : Nat) :
    (getMaxExpansionCoverage G2 (n + 1) "<d>" (n + 1)).isEmpty = false := by
  rw [getMaxExpansionCoverage]
  have hmax : (if n + 1 = 0 then 10 else n + 1) = n + 1 := by
    rw [if_neg (Nat.succ_ne_zero n)]
  rw [hmax, if_pos ⟨by decide, le_refl _⟩]
  exact computeExpCov_d_ne (n + 1)

/-- When `"<d> -> 0"` is covered and `"<d> -> 1"` is not, the systematic
chooser deterministically picks `"1"`. -/
theorem sysChoose_d_after0 (n : Nat) (gc : GrammarCoverage) (rng : Rng)
    (h0 : HasExpansion gc "<d> -> 0" = true)
    (h1 : HasExpansion gc "<d> -> 1" = false) :
    (chooseExpansionSys G2 (n + 1) gc "<d>" ["0", "1"] rng).1 = "1" := by
  rw [chooseExpansionSys]
  have hfilter : (["0", "1"].filter (fun e =>
      !HasExpansion gc (expansionKey "<d>" e) &&
        !(getMaxExpansionCoverage G2 (n + 1) "<d>" (n + 1)).isEmpty)) = ["1"] := by
    have hk0 : expansionKey "<d>" "0" = "<d> -> 0" := rfl
    have hk1 : expansionKey "<d>" "1" = "<d> -> 1" := rfl
    simp only [List.filter, hk0, hk1, h0, h1, getMax_d_ne n,
      Bool.not_true, Bool.not_false, Bool.false_and, Bool.true_and]
  rw [hfilter]
  simp [nextInt, Nat.mod_one]

/-- When `"<d> -> 1"` is covered and `"<d> -> 0"` is not, the systematic
chooser deterministically picks `"0"`. -/
theorem sysChoose_d_after1 (n : Nat) (gc : GrammarCoverage) (rng : Rng)
    (h0 : HasExpansion gc "<d> -> 0" = false)
    (h1 : HasExpansion gc "<d> -> 1" = true) :
    (chooseExpansionSys G2 (n + 1) gc "<d>" ["0", "1"] rng).1 = "0" := by
  rw [chooseExpansionSys]
  have hfilter : (["0", "1"].filter (fun e =>
      !HasExpansion gc (expansionKey "<d>" e) &&
        !(getMaxExpansionCoverage G2 (n + 1) "<d>" (n + 1)).isEmpty)) = ["0"] := by
    have hk0 : expansionKey "<d>" "0" = "<d> -> 0" := rfl
    have hk1 : expansionKey "<d>" "1" = "<d> -> 1" := rfl
    simp only [List.filter, hk0, hk1, h0, h1, getMax_d_ne n,
      Bool.not_true, Bool.not_false, Bool.false_and, Bool.true_and]
  rw [hfilter]
  simp [nextInt, Nat.mod_one]

/-- The shape of one systematic `Run` on the two-digit grammar at any
positive depth bound: starting from any tracker state, it always expands
`<start>` to `<d>`, lets the systematic chooser pick a digit `e`, builds
the three-level tree, and tracks the two keys twice (once during
generation, once through `TrackDerivationTree`); each chooser call
consumes one draw. -/
theorem sysRunG2 (n : Nat) (gc : GrammarCoverage) (rng : Rng) :
    ∃ e, e ∈ ["0", "1"] ∧
      chooseExpansionSys G2 (n + 1) (TrackExpansion gc "<start>" "<d>")
        "<d>" ["0", "1"] { rng with ints := rng.ints.tail }
        = (e, { rng with ints := rng.ints.tail.tail }) ∧
      runSystematic G2 (n + 1) gc rng
        = (DerivationTree.mk "<start>"
             [DerivationTree.mk "<d>" [DerivationTree.mk e [] e ""] "" e]
             "" "<d>",
           TrackDerivationTree
             (TrackExpansion (TrackExpansion gc "<start>" "<d>") "<d>" e)
             (DerivationTree.mk "<start>"
               [DerivationTree.mk "<d>" [DerivationTree.mk e [] e ""] "" e]
               "" "<d>"),
           { rng with ints := rng.ints.tail.tail }) := by
  rcases hch : chooseExpansionSys G2 (n + 1)
      (TrackExpansion gc "<start>" "<d>") "<d>" ["0", "1"]
      { rng with ints := rng.ints.tail } with ⟨e, rngx⟩
  have hmem : e ∈ ["0", "1"] := by
    have h := @sysChoose_mem G2 (n + 1) (TrackExpansion gc "<start>" "<d>")
      "<d>" ["0", "1"] (by simp) { rng with ints := rng.ints.tail }
    rw [hch] at h
    exact h
  have hrngx : rngx = { rng with ints := rng.ints.tail.tail } := by
    have h := sysChoose_rng G2 (n + 1) (TrackExpansion gc "<start>" "<d>")
      "<d>" ["0", "1"] { rng with ints := rng.ints.tail }
    rw [hch] at h
    exact h
  subst hrngx
  refine ⟨e, hmem, rfl, ?_⟩
  rcases hc1 : chooseExpansionSys G2 (n + 1) gc "<start>" ["<d>"] rng
    with ⟨e1, rng1⟩
  have he1 : e1 = "<d>" := by
    have h := sysChoose_singleton G2 (n + 1) gc "<start>" "<d>" rng
    rw [hc1] at h
    exact h
  have hrng1 : rng1 = { rng with ints := rng.ints.tail } := by
    have h := sysChoose_rng G2 (n + 1) gc "<start>" ["<d>"] rng
    rw [hc1] at h
    exact h
  subst he1
  subst hrng1
  have hbody1 :
      generateDerivationTree G2 (chooseExpansionSys G2 (n + 1)) (n + 1 + 1)
          "<start>" gc rng
        = (let ce := chooseExpansionSys G2 (n + 1) gc "<start>" ["<d>"] rng
           let cr := genChildren
             (generateDerivationTree G2 (chooseExpansionSys G2 (n + 1)) (n + 1))
             (fields ce.1) (TrackExpansion gc "<start>" ce.1) ce.2
           (DerivationTree.mk "<start>" cr.1 "" ce.1, cr.2)) := rfl
  have hbody2 :
      generateDerivationTree G2 (chooseExpansionSys G2 (n + 1)) (n + 1)
          "<d>" (TrackExpansion gc "<start>" "<d>")
          { rng with ints := rng.ints.tail }
        = (let ce := chooseExpansionSys G2 (n + 1)
             (TrackExpansion gc "<start>" "<d>") "<d>" ["0", "1"]
             { rng with ints := rng.ints.tail }
           let cr := genChildren
             (generateDerivationTree G2 (chooseExpansionSys G2 (n + 1)) n)
             (fields ce.1)
             (TrackExpansion (TrackExpansion gc "<start>" "<d>") "<d>" ce.1)
             ce.2
           (DerivationTree.mk "<d>" cr.1 "" ce.1, cr.2)) := rfl
  have hmemor : e = "0" ∨ e = "1" := by simpa using hmem
  have hstep2 :
      generateDerivationTree G2 (chooseExpansionSys G2 (n + 1)) (n + 1)
          "<d>" (TrackExpansion gc "<start>" "<d>")
          { rng with ints := rng.ints.tail }
        = (DerivationTree.mk "<d>" [DerivationTree.mk e [] e ""] "" e,
           TrackExpansion (TrackExpansion gc "<start>" "<d>") "<d>" e,
           { rng with ints := rng.ints.tail.tail }) := by
    rw [hbody2, hch]
    rcases hmemor with h | h
    · subst h; rfl
    · subst h; rfl
  have hchild0 : genChildren
      (generateDerivationTree G2 (chooseExpansionSys G2 (n + 1)) (n + 1))
      ["<d>"] (TrackExpansion gc "<start>" "<d>")
      { rng with ints := rng.ints.tail }
      = ((generateDerivationTree G2 (chooseExpansionSys G2 (n + 1)) (n + 1)
            "<d>" (TrackExpansion gc "<start>" "<d>")
            { rng with ints := rng.ints.tail }).1 :: [],
         (generateDerivationTree G2 (chooseExpansionSys G2 (n + 1)) (n + 1)
            "<d>" (TrackExpansion gc "<start>" "<d>")
            { rng with ints := rng.ints.tail }).2.1,
         (generateDerivationTree G2 (chooseExpansionSys G2 (n + 1)) (n + 1)
            "<d>" (TrackExpansion gc "<start>" "<d>")
            { rng with ints := rng.ints.tail }).2.2) := rfl
  have hchildren : genChildren
      (generateDerivationTree G2 (chooseExpansionSys G2 (n + 1)) (n + 1))
      ["<d>"] (TrackExpansion gc "<start>" "<d>")
      { rng with ints := rng.ints.tail }
      = ([DerivationTree.mk "<d>" [DerivationTree.mk e [] e ""] "" e],
         TrackExpansion (TrackExpansion gc "<start>" "<d>") "<d>" e,
         { rng with ints := rng.ints.tail.tail }) := by
    rw [hchild0, hstep2]
  have hstep1 :
      generateDerivationTree G2 (chooseExpansionSys G2 (n + 1)) (n + 1 + 1)
          "<start>" gc rng
        = (DerivationTree.mk "<start>"
             [DerivationTree.mk "<d>" [DerivationTree.mk e [] e ""] "" e]
             "" "<d>",
           TrackExpansion (TrackExpansion gc "<start>" "<d>") "<d>" e,
           { rng with ints := rng.ints.tail.tail }) := by
    have hA : generateDerivationTree G2 (chooseExpansionSys G2 (n + 1))
        (n + 1 + 1) "<start>" gc rng
        = (DerivationTree.mk "<start>"
            (genChildren
              (generateDerivationTree G2 (chooseExpansionSys G2 (n + 1)) (n + 1))
              ["<d>"] (TrackExpansion gc "<start>" "<d>")
              { rng with ints := rng.ints.tail }).1 "" "<d>",
           (genChildren
              (generateDerivationTree G2 (chooseExpansionSys G2 (n + 1)) (n + 1))
              ["<d>"] (TrackExpansion gc "<start>" "<d>")
              { rng with ints := rng.ints.tail }).2) := by
      rw [hbody1, hc1]
      rfl
    rw [hA, hchildren]
  have hrunsys : runSystematic G2 (n + 1) gc rng
      = ((generateDerivationTree G2 (chooseExpansionSys G2 (n + 1))
            (n + 1 + 1) "<start>" gc rng).1,
         TrackDerivationTree
           (generateDerivationTree G2 (chooseExpansionSys G2 (n + 1))
              (n + 1 + 1) "<start>" gc rng).2.1
           (generateDerivationTree G2 (chooseExpansionSys G2 (n + 1))
              (n + 1 + 1) "<start>" gc rng).1,
         (generateDerivationTree G2 (chooseExpansionSys G2 (n + 1))
            (n + 1 + 1) "<start>" gc rng).2.2) := rfl
  rw [hrunsys, hstep1]

theorem snd_fst_mk (a : DerivationTree) (b : GrammarCoverage) (c : Rng) :
    (Prod.mk a (Prod.mk b c)).2.1 = b := rfl

/-- C4: from a fresh coverage tracker over `{<start>→["<d>"], <d>→["0","1"]}`,
two runs of the systematic generator together cover both `"<d> -> 0"` and
`"<d> -> 1"`, for every sequence of RNG draws (any positive depth bound;
`validateConfig` requires `MaxDepth ≥ 1`). The first run covers one digit;
the second run's chooser then sees exactly the other digit as uncovered
and picks it deterministically. -/
theorem C4_systematic_two_runs (maxDepth : Nat) (h : 1 ≤ maxDepth)
    (rng : Rng) :
    HasExpansion
      (runSystematic G2 maxDepth
        (runSystematic G2 maxDepth (NewGrammarCoverage G2) rng).2.1
        (runSystematic G2 maxDepth (NewGrammarCoverage G2) rng).2.2).2.1
      "<d> -> 0" = true ∧
    HasExpansion
      (runSystematic G2 maxDepth
        (runSystematic G2 maxDepth (NewGrammarCoverage G2) rng).2.1
        (runSystematic G2 maxDepth (NewGrammarCoverage G2) rng).2.2).2.1
      "<d> -> 1" = true := by
  obtain ⟨n, rfl⟩ : ∃ n, maxDepth = n + 1 := ⟨maxDepth - 1, by omega⟩
  obtain ⟨e1, hmem1, hch1, hrun1⟩ := sysRunG2 n (NewGrammarCoverage G2) rng
  have hfinal : runSystematic G2 (n + 1)
      (runSystematic G2 (n + 1) (NewGrammarCoverage G2) rng).2.1
      (runSystematic G2 (n + 1) (NewGrammarCoverage G2) rng).2.2
      = runSystematic G2 (n + 1)
          (TrackDerivationTree
            (TrackExpansion
              (TrackExpansion (NewGrammarCoverage G2) "<start>" "<d>")
              "<d>" e1)
            (DerivationTree.mk "<start>"
              [DerivationTree.mk "<d>" [DerivationTree.mk e1 [] e1 ""] "" e1]
              "" "<d>"))
          { rng with ints := rng.ints.tail.tail } := by
    rw [hrun1]
  obtain ⟨e2, hmem2, hch2, hrun2⟩ := sysRunG2 n
    (TrackDerivationTree
      (TrackExpansion
        (TrackExpansion (NewGrammarCoverage G2) "<start>" "<d>") "<d>" e1)
      (DerivationTree.mk "<start>"
        [DerivationTree.mk "<d>" [DerivationTree.mk e1 [] e1 ""] "" e1]
        "" "<d>"))
    { rng with ints := rng.ints.tail.tail }
  rw [hfinal, hrun2]
  have hmem1' : e1 = "0" ∨ e1 = "1" := by simpa using hmem1
  rcases hmem1' with h1 | h1
  · subst h1
    have hval := sysChoose_d_after0 n
      (TrackExpansion
        (TrackDerivationTree
          (TrackExpansion
            (TrackExpansion (NewGrammarCoverage G2) "<start>" "<d>")
            "<d>" "0")
          (DerivationTree.mk "<start>"
            [DerivationTree.mk "<d>" [DerivationTree.mk "0" [] "0" ""] "" "0"]
            "" "<d>"))
        "<start>" "<d>")
      { floats := rng.floats, ints := rng.ints.tail.tail.tail }
      (by decide) (by decide)
    rw [hch2] at hval
    subst hval
    rw [snd_fst_mk]
    exact ⟨by decide, by decide⟩
  · subst h1
    have hval := sysChoose_d_after1 n
      (TrackExpansion
        (TrackDerivationTree
          (TrackExpansion
            (TrackExpansion (NewGrammarCoverage G2) "<start>" "<d>")
            "<d>" "1")
          (DerivationTree.mk "<start>"
            [DerivationTree.mk "<d>" [DerivationTree.mk "1" [] "1" ""] "" "1"]
            "" "<d>"))
        "<start>" "<d>")
      { floats := rng.floats, ints := rng.ints.tail.tail.tail }
      (by decide) (by decide)
    rw [hch2] at hval
    subst hval
    rw [snd_fst_mk]
    exact ⟨by decide, by decide⟩

/-- C4 witness: the claim at the default depth bound 10 and an empty draw
stream. -/
theorem C4_systematic_two_runs_witness :
    HasExpansion
      (runSystematic G2 10
        (runSystematic G2 10 (NewGrammarCoverage G2) ⟨[], []⟩).2.1
        (runSystematic G2 10 (NewGrammarCoverage G2) ⟨[], []⟩).2.2).2.1
      "<d> -> 0" = true ∧
    HasExpansion
      (runSystematic G2 10
        (runSystematic G2 10 (NewGrammarCoverage G2) ⟨[], []⟩).2.1
        (runSystematic G2 10 (NewGrammarCoverage G2) ⟨[], []⟩).2.2).2.1
      "<d> -> 1" = true :=
  C4_systematic_two_runs 10 (by decide) ⟨[], []⟩

/-! ## C10: treeToString against GetLeafValues -/


theorem concatAll_append (l1 l2 : List String) :
    concatAll (l1 ++ l2) = concatAll l1 ++ concatAll l2 := by
  induction l1 with
  | nil => rw [List.nil_append, concatAll, String.empty_append]
  | cons s ss ih =>
    rw [List.cons_append, concatAll, concatAll, ih, String.append_assoc]


theorem treeToStringList_eq (ts : List DerivationTree)
    (h : ∀ t ∈ ts, treeToString t = concatAll t.GetLeafValues) :
    treeToStringList ts = concatAll (DerivationTree.getLeafValuesList ts) := by
  induction ts with
  | nil => rfl
  | cons t ts ih =>
    show treeToString t ++ treeToStringList ts = _
    rw [show DerivationTree.getLeafValuesList (t :: ts)
        = t.GetLeafValues ++ DerivationTree.getLeafValuesList ts from rfl,
      concatAll_append, h t (List.mem_cons_self t ts),
      ih (fun u hu => h u (List.mem_cons_of_mem _ hu))]

theorem treeToString_eq_concat {t : DerivationTree} (h : GoodTree t) :
    treeToString t = concatAll t.GetLeafValues := by
  induction h with
  | leaf s v e hve =>
    show v = concatAll (if v != "" then [v] else [s])
    by_cases hv : v = ""
    · rcases hve with hne | hs
      · exact absurd hv hne
      · subst hv
        rw [if_neg (by simp), concatAll, concatAll, String.append_empty, hs]
    · rw [if_pos (by simpa using hv), concatAll, concatAll, String.append_empty]
  | node s v e c cs hc hcs ihc ihcs =>
    show treeToStringList (c :: cs)
      = concatAll (DerivationTree.getLeafValuesList (c :: cs))
    refine treeToStringList_eq (c :: cs) (fun u hu => ?_)
    rcases List.mem_cons.mp hu with h | h
    · subst h; exact ihc
    · exact ihcs u h

theorem cumulativeWalk_mem {e : String} :
    ∀ (r sum : ℚ) (pes : List (ℚ × String)),
      cumulativeWalk r sum pes = some e → ∃ p, (p, e) ∈ pes := by
  intro r sum pes
  induction pes generalizing sum with
  | nil => intro h; cases h
  | cons pe rest ih =>
    intro h
    rw [cumulativeWalk] at h
    split at h
    · obtain rfl : pe.2 = e := by injection h
      exact ⟨pe.1, by simp⟩
    · obtain ⟨p, hp⟩ := ih _ h
      exact ⟨p, List.mem_cons_of_mem _ hp⟩

/-- The weighted chooser returns one of the expansions it was given. -/
theorem chooseExpansion_mem (gc : GrammarCoverage) (sym : String)
    {exps : List String} (rng : Rng) (h : exps ≠ []) :
    (chooseExpansion gc sym exps rng).1 ∈ exps := by
  rw [chooseExpansion]
  split
  · simp only []
    split
    · next e' heq =>
      obtain ⟨p, hp⟩ := cumulativeWalk_mem _ _ _ heq
      exact (List.of_mem_zip hp).2
    · exact getD_mem (Nat.mod_lt _ (List.length_pos_of_ne_nil h)) ""
  · exact getD_mem (Nat.mod_lt _ (List.length_pos_of_ne_nil h)) ""

theorem mem_of_lookupRule {g : Grammar} {sym : String} {v : List String}
    (h : List.lookup sym g = some v) : (sym, v) ∈ g := by
  induction g with
  | nil => cases h
  | cons p t ih =>
    rcases p with ⟨a, b⟩
    rw [List.lookup_cons] at h
    by_cases hsa : sym = a
    · subst hsa
      simp only [beq_self_eq_true] at h
      obtain rfl : b = v := by injection h
      exact List.mem_cons_self _ _
    · have : (sym == a) = false := by simp [hsa]
      rw [this] at h
      exact List.mem_cons_of_mem _ (ih h)

theorem genChildren_ne_nil
    (recur : String → GrammarCoverage → Rng →
      DerivationTree × GrammarCoverage × Rng)
    (p : String) (ps : List String) (gc : GrammarCoverage) (rng : Rng) :
    ∃ c cs, (genChildren recur (p :: ps) gc rng).1 = c :: cs := by
  rw [genChildren]
  split
  · exact ⟨_, _, rfl⟩
  · exact ⟨_, _, rfl⟩

theorem genChildren_good
    (recur : String → GrammarCoverage → Rng →
      DerivationTree × GrammarCoverage × Rng)
    (hrec : ∀ s gc rng, GoodTree (recur s gc rng).1) :
    ∀ (parts : List String) (gc : GrammarCoverage) (rng : Rng),
      ∀ t ∈ (genChildren recur parts gc rng).1, GoodTree t := by
  intro parts
  induction parts with
  | nil =>
    intro gc rng t ht
    cases ht
  | cons p ps ih =>
    intro gc rng t ht
    rw [genChildren] at ht
    split at ht
    · rcases List.mem_cons.mp ht with h | h
      · subst h; exact hrec p gc rng
      · exact ih _ _ t h
    · rcases List.mem_cons.mp ht with h | h
      · subst h; exact GoodTree.leaf _ _ _ (Or.inr rfl)
      · exact ih _ _ t h

theorem gen_good (g : Grammar)
    (hg : ∀ p ∈ g, ∀ e ∈ p.2, fields e ≠ [])
    (choose : Chooser)
    (hchoose : ∀ gc sym exps rng, exps ≠ [] →
      (choose gc sym exps rng).1 ∈ exps) :
    ∀ (fuel : Nat) (sym : String) (gc : GrammarCoverage) (rng : Rng),
      GoodTree (generateDerivationTree g choose fuel sym gc rng).1 := by
  intro fuel
  induction fuel with
  | zero =>
    intro sym gc rng
    exact GoodTree.leaf _ _ _ (Or.inl (by decide))
  | succ n ih =>
    intro sym gc rng
    have hb : generateDerivationTree g choose (n + 1) sym gc rng
        = (match lookupRule g sym with
           | [] => (DerivationTree.mk sym [] sym "", gc, rng)
           | e0 :: es =>
             let ce := choose gc sym (e0 :: es) rng
             let cr := genChildren (generateDerivationTree g choose n)
               (fields ce.1) (TrackExpansion gc sym ce.1) ce.2
             (DerivationTree.mk sym cr.1 "" ce.1, cr.2)) := rfl
    rw [hb]
    split
    · exact GoodTree.leaf _ _ _ (Or.inr rfl)
    · next e0 es heq =>
      show GoodTree (DerivationTree.mk sym
        (genChildren (generateDerivationTree g choose n)
          (fields (choose gc sym (e0 :: es) rng).1)
          (TrackExpansion gc sym (choose gc sym (e0 :: es) rng).1)
          (choose gc sym (e0 :: es) rng).2).1
        "" (choose gc sym (e0 :: es) rng).1)
      have hlu : List.lookup sym g = some (e0 :: es) := by
        rcases hl : List.lookup sym g with _ | v
        · rw [lookupRule, hl] at heq
          cases heq
        · rw [lookupRule, hl] at heq
          simp only [Option.getD] at heq
          rw [heq]
      have hmemg : (sym, e0 :: es) ∈ g := mem_of_lookupRule hlu
      have hche : (choose gc sym (e0 :: es) rng).1 ∈ e0 :: es :=
        hchoose gc sym (e0 :: es) rng (by simp)
      have hfe : fields (choose gc sym (e0 :: es) rng).1 ≠ [] :=
        hg (sym, e0 :: es) hmemg _ hche
      rcases hparts : fields (choose gc sym (e0 :: es) rng).1 with _ | ⟨p0, ps⟩
      · exact absurd hparts hfe
      · have hgood := genChildren_good (generateDerivationTree g choose n)
          (fun s gc rng => ih s gc rng) (p0 :: ps)
          (TrackExpansion gc sym (choose gc sym (e0 :: es) rng).1)
          (choose gc sym (e0 :: es) rng).2
        obtain ⟨c, cs, hcons⟩ := genChildren_ne_nil
          (generateDerivationTree g choose n) p0 ps
          (TrackExpansion gc sym (choose gc sym (e0 :: es) rng).1)
          (choose gc sym (e0 :: es) rng).2
        rw [hcons]
        rw [hcons] at hgood
        exact GoodTree.node _ _ _ _ _
          (hgood c (List.mem_cons_self c cs))
          (fun t ht => hgood t (List.mem_cons_of_mem _ ht))

/-- C10: for every grammar whose expansions all tokenise to at least one
token and every tree the coverage-weighted generator produces (from any
symbol, state, depth bound and draw sequence), the flattened leaf string
`treeToString` equals the in-order concatenation of `GetLeafValues`. -/
theorem C10_treeToString_leafValues (g : Grammar) (fuel : Nat)
    (sym : String) (gc : GrammarCoverage) (rng : Rng)
    (hg : ∀ p ∈ g, ∀ e ∈ p.2, fields e ≠ []) :
    treeToString (generateDerivationTree g chooseExpansion fuel sym gc rng).1
      = concatAll (DerivationTree.GetLeafValues
          (generateDerivationTree g chooseExpansion fuel sym gc rng).1) :=
  treeToString_eq_concat
    (gen_good g hg chooseExpansion
      (fun gc sym _ rng h => chooseExpansion_mem gc sym rng h)
      fuel sym gc rng)

/-- C10 witness: the relation at the scenario-1 grammar, depth bound 2,
empty draw stream. -/
theorem C10_treeToString_leafValues_witness :
    treeToString (generateDerivationTree G8 chooseExpansion 3 "<start>"
      (NewGrammarCoverage G8) ⟨[], []⟩).1
      = concatAll (DerivationTree.GetLeafValues
          (generateDerivationTree G8 chooseExpansion 3 "<start>"
            (NewGrammarCoverage G8) ⟨[], []⟩).1) :=
  C10_treeToString_leafValues G8 3 "<start>" (NewGrammarCoverage G8) ⟨[], []⟩
    (by decide)

end Gofuzz
